import Mathlib

/-!
Verification of the sequence Bloom tree implementation in `sbt.py`
(Solomon & Kingsford-style SBT: `GraphFactory`, `Node`, `Leaf`,
`add_node`, `find`, `save_sbt` / `load_sbt`, `filter_distance`) together
with the driver predicate `search_transcript`.

The tree logic, insertion, search and persistence are translated
directly from `sbt.py`.  The Bloom-filter primitive (`khmer.Nodegraph`)
is an external library; it is modelled from the spec (section 4.1):
a fixed k-mer length, one fixed-size bit table per hash function,
`count` sets one bit per table at `hash(kmer) % tablesize`, `get` is
the conjunction over tables, `update` is the bitwise OR.  A bit table
is represented by the list of its set bit indices (bit `x` of table
`i` is set iff `x` is a member of list `i`), which preserves the
membership semantics of a bit array exactly.
-/

set_option maxHeartbeats 1000000

/-- Modelled from the spec: the hash-function family is out of scope
("any quality hash ... applied consistently"); we fix the 2-bit DNA
encoding hash, which is injective on the k-mers of the embedded tests. -/
def kmerCode : Char → Nat
  | 'A' => 0
  | 'C' => 1
  | 'G' => 2
  | 'T' => 3
  | _ => 0

/-- Modelled from the spec: the per-kmer hash value fed to every table. -/
def hashKmer (s : String) : Nat :=
  s.toList.foldl (fun h c => h * 4 + kmerCode c) 0

/-- Modelled from the spec (section 4.1): `khmer.Nodegraph`.  `tables`
holds, for each hash table, the list of set bit indices. -/
structure Nodegraph where
  ksize : Nat
  tablesizes : List Nat
  tables : List (List Nat)
deriving DecidableEq

/-- `GraphFactory` from `sbt.py`: holds the fixed filter geometry.
The source stores `(ksize, starting_size, n_tables)` and khmer derives
one table per hash function; per the spec (section 4.2) the factory is
the pair (K, table sizes). -/
structure GraphFactory where
  ksize : Nat
  tablesizes : List Nat
deriving DecidableEq

/-- `GraphFactory.create_nodegraph`: a fresh, empty filter of the
factory's geometry. -/
def GraphFactory.create_nodegraph (f : GraphFactory) : Nodegraph :=
  Nodegraph.mk f.ksize f.tablesizes (f.tablesizes.map fun _ => [])

/-- Modelled from the spec: `Nodegraph.count(kmer)` sets, in every
table `i`, the bit `hash(kmer) % M_i`. -/
def Nodegraph.count (g : Nodegraph) (kmer : String) : Nodegraph :=
  Nodegraph.mk g.ksize g.tablesizes
    ((g.tables.zip g.tablesizes).map fun p => (hashKmer kmer % p.2) :: p.1)

/-- Modelled from the spec: `Nodegraph.get(kmer)` is true iff every
table has the bit `hash(kmer) % M_i` set. -/
def Nodegraph.get (g : Nodegraph) (kmer : String) : Bool :=
  (g.tables.zip g.tablesizes).all fun p => p.1.contains (hashKmer kmer % p.2)

/-- Modelled from the spec: `Nodegraph.update(other)` bitwise-ORs every
table with `other`'s corresponding table (used by `add_node`). -/
def Nodegraph.update (g other : Nodegraph) : Nodegraph :=
  Nodegraph.mk g.ksize g.tablesizes
    ((g.tables.zip other.tables).map fun p => p.1 ++ p.2)

/-- Bit-level inclusion of one filter in another: every set bit of `g`
(table by table) is set in `h`. -/
def Nodegraph.bitsSubset (g h : Nodegraph) : Bool :=
  (List.range g.tables.length).all fun i =>
    (g.tables.getD i []).all fun x => (h.tables.getD i []).contains x

/-- Structural compatibility of a filter with a factory's geometry:
same table sizes, and one table per declared size. -/
def Nodegraph.geomOK (g : Nodegraph) (fac : GraphFactory) : Bool :=
  g.tablesizes == fac.tablesizes && g.tables.length == fac.tablesizes.length

/-- Threaded builder state: the stream of random tie-break choices
(`random.choice`) and the global `Node.n_nodes` name counter. -/
structure BuildState where
  coins : List Bool
  nNodes : Nat
deriving DecidableEq

/-- The SBT vertices: `Node` (internal: aggregated filter, name,
`children` weight counter, `subnodes` list) and `Leaf` (metadata,
name, dataset filter), as a tagged union of the two Python classes. -/
inductive SBTNode where
  | Node (graph : Nodegraph) (name : String) (children : Nat) (subnodes : List SBTNode)
  | Leaf (metadata : String) (name : String) (graph : Nodegraph)

/-- The `graph` attribute shared by `Node` and `Leaf`. -/
def SBTNode.graph : SBTNode → Nodegraph
  | SBTNode.Node g _ _ _ => g
  | SBTNode.Leaf _ _ g => g

/-- The `children` weight counter; a `Leaf.__init__` sets it to 0 and
no tree operation ever writes it, so it is 0 on every leaf. -/
def SBTNode.children : SBTNode → Nat
  | SBTNode.Node _ _ w _ => w
  | SBTNode.Leaf _ _ _ => 0

/-- The `name` attribute. -/
def SBTNode.nameOf : SBTNode → String
  | SBTNode.Node _ nm _ _ => nm
  | SBTNode.Leaf _ nm _ => nm

/-- The `metadata` attribute (only leaves carry one). -/
def SBTNode.metadataOf : SBTNode → String
  | SBTNode.Leaf m _ _ => m
  | SBTNode.Node _ _ _ _ => ""

/-- Discriminator for the `Leaf` case. -/
def SBTNode.isLeaf : SBTNode → Bool
  | SBTNode.Leaf _ _ _ => true
  | SBTNode.Node _ _ _ _ => false

/-- The `subnodes` list (empty for leaves). -/
def SBTNode.subnodesOf : SBTNode → List SBTNode
  | SBTNode.Node _ _ _ subs => subs
  | SBTNode.Leaf _ _ _ => []

/-- `Node.__init__(factory)`: fresh empty aggregated filter, name
`internal.<n_nodes>`, zero weight, no subnodes; increments the global
name counter. -/
def newNode (fac : GraphFactory) (st : BuildState) : SBTNode × BuildState :=
  (SBTNode.Node fac.create_nodegraph ("internal." ++ toString st.nNodes) 0 [],
   BuildState.mk st.coins (st.nNodes + 1))

/-- `Node.add_node(node)` from `sbt.py`.

With fewer than two subnodes the new item is appended, the item's
filter is unioned into this node's filter, and `children` grows by 1.
With two subnodes the lighter child (`random.choice` on equal weights,
consuming one coin; the subnode list is always of length two in every
reachable state, so the choice is modelled as a two-way coin) is
detached, a fresh node is created from the factory, and the two calls
`n.add_node(node); n.add_node(subn)` are written out: the fresh node
has zero and then one subnode, so both calls take the append branch of
this very definition.  Finally the fresh node replaces the detached
child, the item's filter (not the detached child's, which is already
included) is unioned in, and `children` grows by 2.

Python's `Leaf` has no `add_node` method (calling it raises
`AttributeError` and is unreachable in builds); the `Leaf` case is
modelled as the identity. -/
def SBTNode.add_node (self : SBTNode) (fac : GraphFactory) (st : BuildState)
    (item : SBTNode) : SBTNode × BuildState :=
  match self with
  | SBTNode.Leaf m nm g => (SBTNode.Leaf m nm g, st)
  | SBTNode.Node g nm w subs =>
    match subs with
    | [] => (SBTNode.Node (g.update item.graph) nm (w + 1) [item], st)
    | [a] => (SBTNode.Node (g.update item.graph) nm (w + 1) [a, item], st)
    | a :: b :: rest =>
      let picked : Bool × BuildState :=
        if a.children = b.children then
          (st.coins.headD true, BuildState.mk st.coins.tail st.nNodes)
        else if a.children < b.children then (true, st)
        else (false, st)
      let subn := if picked.1 then a else b
      let remaining := if picked.1 then b :: rest else a :: rest
      let fname := "internal." ++ toString picked.2.nNodes
      let st2 := BuildState.mk picked.2.coins (picked.2.nNodes + 1)
      let n1g := (fac.create_nodegraph).update item.graph
      let n2 := SBTNode.Node (n1g.update subn.graph) fname 2 [item, subn]
      (SBTNode.Node (g.update item.graph) nm (w + 2) (remaining ++ [n2]), st2)

mutual

/-- `Node.find` / `Leaf.find` from `sbt.py`: prune when the predicate
rejects this node, otherwise recurse into every subnode in stored
order; a leaf returns itself iff the predicate accepts it. -/
def SBTNode.find (p : SBTNode → Bool) : SBTNode → List SBTNode
  | SBTNode.Leaf m nm g =>
      if p (SBTNode.Leaf m nm g) then [SBTNode.Leaf m nm g] else []
  | SBTNode.Node g nm w subs =>
      if p (SBTNode.Node g nm w subs) then findList p subs else []
termination_by structural t => t

/-- The `for n in self.subnodes: x.extend(n.find(...))` loop of
`Node.find`. -/
def findList (p : SBTNode → Bool) : List SBTNode → List SBTNode
  | [] => []
  | c :: cs => SBTNode.find p c ++ findList p cs
termination_by structural l => l

end

mutual

/-- All leaves of a subtree, in stored child order. -/
def leavesOf : SBTNode → List SBTNode
  | SBTNode.Leaf m nm g => [SBTNode.Leaf m nm g]
  | SBTNode.Node _ _ _ subs => leavesList subs
termination_by structural t => t

/-- Leaves of a list of subtrees, concatenated. -/
def leavesList : List SBTNode → List SBTNode
  | [] => []
  | c :: cs => leavesOf c ++ leavesList cs
termination_by structural l => l

end

mutual

/-- Total number of tree vertices (internal nodes plus leaves). -/
def countNodes : SBTNode → Nat
  | SBTNode.Leaf _ _ _ => 1
  | SBTNode.Node _ _ _ subs => 1 + countList subs
termination_by structural t => t

/-- Vertex count of a list of subtrees. -/
def countList : List SBTNode → Nat
  | [] => 0
  | c :: cs => countNodes c + countList cs
termination_by structural l => l

end

mutual

/-- Every internal vertex of this subtree (itself included) has
exactly two subnodes. -/
def allTwoB : SBTNode → Bool
  | SBTNode.Leaf _ _ _ => true
  | SBTNode.Node _ _ _ subs => subs.length == 2 && allTwoList subs
termination_by structural t => t

/-- `allTwoB` over a list of subtrees. -/
def allTwoList : List SBTNode → Bool
  | [] => true
  | c :: cs => allTwoB c && allTwoList cs
termination_by structural l => l

end

mutual

/-- Every subtree of a tree, the tree itself included. -/
def subtreesOf : SBTNode → List SBTNode
  | SBTNode.Leaf m nm g => [SBTNode.Leaf m nm g]
  | SBTNode.Node g nm w subs => SBTNode.Node g nm w subs :: subtreesList subs
termination_by structural t => t

/-- `subtreesOf` over a list of subtrees. -/
def subtreesList : List SBTNode → List SBTNode
  | [] => []
  | c :: cs => subtreesOf c ++ subtreesList cs
termination_by structural l => l

end

/-- The filter `g` has every set bit of every leaf of `c`. -/
def domLeaves (g : Nodegraph) (c : SBTNode) : Bool :=
  (leavesOf c).all fun l => l.graph.bitsSubset g

mutual

/-- The aggregation invariant of a tree: every vertex's filter matches
the factory geometry, and every internal vertex's filter contains all
set bits of all leaves below each of its subnodes. -/
def treeInv (fac : GraphFactory) : SBTNode → Bool
  | SBTNode.Leaf _ _ g => g.geomOK fac
  | SBTNode.Node g _ _ subs => g.geomOK fac && subsInv fac g subs
termination_by structural t => t

/-- `treeInv` for a subnode list under an aggregated filter `g`. -/
def subsInv (fac : GraphFactory) (g : Nodegraph) : List SBTNode → Bool
  | [] => true
  | c :: cs => domLeaves g c && treeInv fac c && subsInv fac g cs
termination_by structural l => l

end

/-- The `for sample in samples: root.add_node(leaf)` build loop of the
driver: add each item in turn into the accumulated root. -/
def addAll (fac : GraphFactory) : List SBTNode → SBTNode × BuildState → SBTNode × BuildState
  | [], p => p
  | item :: rest, p => addAll fac rest (p.1.add_node fac p.2 item)

/-- A tree built from a fresh root (`Node(factory)`) purely by
`add_node` calls, one per item, threading coins and the name counter. -/
def buildTree (fac : GraphFactory) (st : BuildState) (items : List SBTNode) :
    SBTNode × BuildState :=
  addAll fac items (newNode fac st)

/-- Monotonicity of a search predicate, as used by the pruning-soundness
property: on structurally compatible filters, growing the set bits can
only turn the predicate true. -/
def MonotonePred (p : SBTNode → Bool) : Prop :=
  ∀ t u : SBTNode,
    t.graph.tablesizes = u.graph.tablesizes →
    t.graph.tables.length = t.graph.tablesizes.length →
    u.graph.tables.length = u.graph.tablesizes.length →
    t.graph.bitsSubset u.graph = true → p t = true → p u = true

/-- `node_fn` from `sbt.py`: the filter blob path `<tag>.<name>.sbt`. -/
def node_fn (name tag : String) : String :=
  tag ++ "." ++ name ++ "." ++ "sbt"

/-- One record of the persisted JSON document: a dict that may carry
`filename`, `name`, `children`, `metadata` (leaf records only), `left`
and `right` (internal records only).  The `blob` component stands for
the contents of the separate filter file written by `graph.save` under
`filename` and read back by `khmer.load_nodegraph`; the spec requires
that round trip to be bit-exact, so the blob is the filter itself, and
a missing blob models a missing or unreadable filter file. -/
inductive Doc where
  | mk (filename : Option String) (name : Option String) (children : Option Nat)
       (metadata : Option String) (left : Option Doc) (right : Option Doc)
       (blob : Option Nodegraph)

/-- The `filename` field of a record. -/
def Doc.filenameF : Doc → Option String
  | Doc.mk f _ _ _ _ _ _ => f

/-- The filter blob stored at the record's `filename`. -/
def Doc.blobF : Doc → Option Nodegraph
  | Doc.mk _ _ _ _ _ _ b => b

/-- The wrapper object written by `save_sbt`: a `size` and a `root`
record (each optional, since a loaded JSON dict may lack either). -/
inductive SbtDoc where
  | mk (size : Option Nat) (root : Option Doc)

/-- The `size` field of the wrapper. -/
def SbtDoc.sizeF : SbtDoc → Option Nat
  | SbtDoc.mk s _ => s

/-- The `root` field of the wrapper. -/
def SbtDoc.rootF : SbtDoc → Option Doc
  | SbtDoc.mk _ r => r

/-- `save_node` from `sbt.py`: every record gets `filename`, `name`,
`children` and its filter blob; a leaf record additionally gets
`metadata`, an internal record gets `left` and `right` from
`subnodes[0]` and `subnodes[1]`.  Reading `subnodes[0]` or
`subnodes[1]` of an internal node with fewer than two subnodes raises
`IndexError` in the source, modelled as `none`; subnodes past the
second (unreachable in built trees) are silently not saved, as in the
source. -/
def save_node (tag : String) : SBTNode → Option Doc
  | SBTNode.Leaf m nm g =>
      some (Doc.mk (some (node_fn nm tag)) (some nm) (some 0) (some m) none none (some g))
  | SBTNode.Node g nm w subs =>
      match subs with
      | a :: b :: _ =>
          match save_node tag a, save_node tag b with
          | some dl, some dr =>
              some (Doc.mk (some (node_fn nm tag)) (some nm) (some w) none
                    (some dl) (some dr) (some g))
          | _, _ => none
      | _ => none

/-- `save_sbt` from `sbt.py`: wraps the root record and writes
`size = root.children + 1`. -/
def save_sbt (root : SBTNode) (tag : String) : Option SbtDoc :=
  (save_node tag root).map fun d => SbtDoc.mk (some (root.children + 1)) (some d)

/-- Persistence failures.  Modelled from the spec (section 7): the
source surfaces a missing document field as a `KeyError` from the dict
access (`DocumentParseError` in the spec's naming, tagged here with the
missing key) and a missing or unreadable blob as the khmer loader's
error (`FilterLoadError`, tagged with the blob's filename). -/
inductive LoadError where
  | documentParseError (field : String)
  | filterLoadError (filename : String)
deriving DecidableEq

/-- `load_node` from `sbt.py`, field accesses in source order: read
`filename` (missing key fails), load the blob (missing blob fails);
a record with `metadata` is rebuilt as a `Leaf` from `metadata`,
`name` and the blob — any `left`/`right` it carries are never looked
at; otherwise read and recurse into `left` then `right`, then restore
`children` and `name` from the record.  The transient
`Node(factory)` whose fields are all overwritten (its only effect is
the global name counter) is omitted; `factory` is kept as the unused
parameter it effectively is. -/
def load_node (fac : GraphFactory) : Doc → Except LoadError SBTNode
  | Doc.mk fn name children metadata left right blob => do
      let filename ← match fn with
        | some f => Except.ok f
        | none => Except.error (LoadError.documentParseError "filename")
      let graph ← match blob with
        | some g => Except.ok g
        | none => Except.error (LoadError.filterLoadError filename)
      match metadata with
      | some m => do
          let nm ← match name with
            | some s => Except.ok s
            | none => Except.error (LoadError.documentParseError "name")
          Except.ok (SBTNode.Leaf m nm graph)
      | none =>
          match left with
          | none => Except.error (LoadError.documentParseError "left")
          | some ld => do
              let lt ← load_node fac ld
              match right with
              | none => Except.error (LoadError.documentParseError "right")
              | some rd => do
                  let rt ← load_node fac rd
                  let w ← match children with
                    | some c => Except.ok c
                    | none => Except.error (LoadError.documentParseError "children")
                  let nm ← match name with
                    | some s => Except.ok s
                    | none => Except.error (LoadError.documentParseError "name")
                  Except.ok (SBTNode.Node graph nm w [lt, rt])

/-- `load_sbt` from `sbt.py`: read the `root` record, recover the
filter geometry from the root's blob (`extract_nodegraph_info` on the
root's `filename`), build a compatible factory, and rebuild the tree
with `load_node`. -/
def load_sbt (d : SbtDoc) : Except LoadError SBTNode := do
  let root ← match d.rootF with
    | some r => Except.ok r
    | none => Except.error (LoadError.documentParseError "root")
  let filename ← match root.filenameF with
    | some f => Except.ok f
    | none => Except.error (LoadError.documentParseError "filename")
  let g ← match root.blobF with
    | some g => Except.ok g
    | none => Except.error (LoadError.filterLoadError filename)
  load_node (GraphFactory.mk g.ksize g.tablesizes) root

/-- Bits on which two bytes agree: the source counts, for each of the
8 bit positions, `not (bit of a) xor (bit of b)`. -/
def byteAgreement (x y : Nat) : Nat :=
  ((List.range 8).filter fun j => Nat.testBit x j == Nat.testBit y j).length

/-- One table pair of `filter_distance`: index both raw byte tables at
each drawn position and sum the per-byte bit agreements.  An index
outside the byte array raises `IndexError` in the source (numpy
refuses out-of-range reads), modelled as `none`. -/
def tableSample (a b : List Nat) : List Nat → Option Nat
  | [] => some 0
  | i :: is => do
      let x ← a.get? i
      let y ← b.get? i
      let rest ← tableSample a b is
      some (byteAgreement x y + rest)

/-- The double loop of `filter_distance` over `zip(A, B)` with one
draw list per table pair. -/
def sampleAll : List (List Nat × List Nat) → List (List Nat) → Option Nat
  | [], _ => some 0
  | _, [] => some 0
  | (a, b) :: rest, d :: ds => do
      let s ← tableSample a b d
      let r ← sampleAll rest ds
      some (s + r)

/-- `filter_distance` from `sbt.py` over the raw table byte arrays `A`
and `B`.  The source draws its positions with `randint(0, len(a))`
(Python's `randint` includes both endpoints, so any `i ≤ len a` is a
possible draw); the draws are passed in explicitly, one list of `n`
positions per table pair.  The result is the total bit-agreement count
divided by `8 * len(A) * n`. -/
def filter_distance (A B : List (List Nat)) (n : Nat) (draws : List (List Nat)) :
    Option ℚ := do
  let total ← sampleAll (A.zip B) draws
  some ((total : ℚ) / (8 * A.length * n))

/-- Every position of every draw list is one that `randint(0, len a)`
can return for its table pair: at most `len a` (inclusive). -/
def legalDraws (A B : List (List Nat)) (n : Nat) (draws : List (List Nat)) : Bool :=
  draws.length == (A.zip B).length &&
  ((A.zip B).zip draws).all fun p =>
    p.2.length == n && p.2.all fun i => i ≤ p.1.1.length

/-- Python `int()` applied to the product of a rational threshold and
an integer count (`int(threshold * (len(seq) - ksize + 1))` in
`search_transcript`): `threshold * L = (num * L) / den` truncated
toward zero. -/
def pyIntMul (q : ℚ) (L : ℤ) : ℤ :=
  Int.tdiv (q.num * L) (q.den : ℤ)

/-- The `kmers` generator of the tests and driver: all substrings of
length `k`, `range(len(seq) - k + 1)` many (none when the sequence is
shorter than `k`). -/
def kmersOf (k : Nat) (s : String) : List String :=
  (List.range (s.length + 1 - k)).map fun i => String.mk ((s.toList.drop i).take k)

/-- `search_kmer` from `test_simple`: exact single-k-mer membership in
the node's filter. -/
def search_kmer (seq : String) (node : SBTNode) : Bool :=
  node.graph.get seq

/-- `search_transcript` from `test_longer_search`: count how many of
the query's k-mers the node's filter reports present and compare with
`int(threshold * (len(seq) - ksize + 1))`. -/
def search_transcript (ksize : Nat) (seq : String) (threshold : ℚ) (node : SBTNode) : Bool :=
  decide (((kmersOf ksize seq).countP fun k => node.graph.get k : ℤ) ≥
    pyIntMul threshold ((seq.length : ℤ) - (ksize : ℤ) + 1))

/-- The factory of the embedded tests: `GraphFactory(5, [101, 103, 117])`. -/
def factory0 : GraphFactory :=
  GraphFactory.mk 5 [101, 103, 117]

/-- Dataset `a` of the tests: k-mers AAAAA, AAAAT, AAAAC. -/
def leafA : SBTNode :=
  SBTNode.Leaf "a" "a" (((factory0.create_nodegraph.count "AAAAA").count "AAAAT").count "AAAAC")

/-- Dataset `b` of the tests: k-mers AAAAA, AAAAT, AAAAG. -/
def leafB : SBTNode :=
  SBTNode.Leaf "b" "b" (((factory0.create_nodegraph.count "AAAAA").count "AAAAT").count "AAAAG")

/-- Dataset `c` of the tests: k-mers AAAAA, AAAAT, CAAAA. -/
def leafC : SBTNode :=
  SBTNode.Leaf "c" "c" (((factory0.create_nodegraph.count "AAAAA").count "AAAAT").count "CAAAA")

/-- Dataset `d` of the tests: k-mers AAAAA, CAAAA, GAAAA (no AAAAT). -/
def leafD : SBTNode :=
  SBTNode.Leaf "d" "d" (((factory0.create_nodegraph.count "AAAAA").count "CAAAA").count "GAAAA")

/-- Dataset `e` of the tests: k-mers AAAAA, AAAAT, GAAAA. -/
def leafE : SBTNode :=
  SBTNode.Leaf "e" "e" (((factory0.create_nodegraph.count "AAAAA").count "AAAAT").count "GAAAA")

/-- The five-dataset tree of `test_longer_search`, built by five
`add_node` calls on a fresh root; `c1` and `c2` are the two random
tie-break choices the build consumes (after the third and fifth add). -/
def buildScenario (c1 c2 : Bool) : SBTNode :=
  (buildTree factory0 (BuildState.mk [c1, c2] 0) [leafA, leafB, leafC, leafD, leafE]).1

/-- Structural induction for `SBTNode` with a pointwise hypothesis on
the subnode list. -/
theorem SBTNode.inductionOn {motive : SBTNode → Prop}
    (hleaf : ∀ m nm g, motive (SBTNode.Leaf m nm g))
    (hnode : ∀ g nm w subs, (∀ c ∈ subs, motive c) → motive (SBTNode.Node g nm w subs)) :
    ∀ t, motive t
  | SBTNode.Leaf m nm g => hleaf m nm g
  | SBTNode.Node g nm w subs =>
      hnode g nm w subs fun c hc =>
        SBTNode.inductionOn hleaf hnode c
termination_by t => sizeOf t
decreasing_by
  have h1 := List.sizeOf_lt_of_mem hc
  simp only [SBTNode.Node.sizeOf_spec]
  omega

theorem mem_leavesList {l : SBTNode} {cs : List SBTNode} :
    l ∈ leavesList cs ↔ ∃ c ∈ cs, l ∈ leavesOf c := by
  induction cs with
  | nil => simp [leavesList]
  | cons c cs ih => simp [leavesList, ih]

theorem mem_findList {p : SBTNode → Bool} {x c : SBTNode} {cs : List SBTNode}
    (hc : c ∈ cs) (hx : x ∈ SBTNode.find p c) : x ∈ findList p cs := by
  induction cs with
  | nil => cases hc
  | cons a cs ih =>
      rcases List.mem_cons.mp hc with h | h
      · subst h; exact List.mem_append.mpr (Or.inl hx)
      · exact List.mem_append.mpr (Or.inr (ih h))

theorem leavesList_append (cs ds : List SBTNode) :
    leavesList (cs ++ ds) = leavesList cs ++ leavesList ds := by
  induction cs with
  | nil => simp [leavesList]
  | cons c cs ih => simp [leavesList, ih]

theorem countList_append (cs ds : List SBTNode) :
    countList (cs ++ ds) = countList cs + countList ds := by
  induction cs with
  | nil => simp [countList]
  | cons c cs ih => simp [countList, ih]; omega

theorem allTwoList_iff (cs : List SBTNode) :
    allTwoList cs = true ↔ ∀ c ∈ cs, allTwoB c = true := by
  induction cs with
  | nil => simp [allTwoList]
  | cons c cs ih => simp [allTwoList, ih]

theorem subsInv_iff (fac : GraphFactory) (g : Nodegraph) (cs : List SBTNode) :
    subsInv fac g cs = true ↔
      ∀ c ∈ cs, domLeaves g c = true ∧ treeInv fac c = true := by
  induction cs with
  | nil => simp [subsInv]
  | cons c cs ih => simp [subsInv, ih]

theorem mem_subtreesList {s : SBTNode} {cs : List SBTNode} :
    s ∈ subtreesList cs ↔ ∃ c ∈ cs, s ∈ subtreesOf c := by
  induction cs with
  | nil => simp [subtreesList]
  | cons c cs ih => simp [subtreesList, ih]

theorem zip_all_getD {α β : Type} (f : α × β → Bool) (da : α) (db : β) :
    ∀ (xs : List α) (ys : List β), xs.length = ys.length →
      (((xs.zip ys).all f) = true ↔
        ∀ i < xs.length, f (xs.getD i da, ys.getD i db) = true) := by
  intro xs
  induction xs with
  | nil => intro ys h; simp
  | cons x xs ih =>
      intro ys h
      cases ys with
      | nil => simp at h
      | cons y ys =>
          simp only [List.length_cons, Nat.succ.injEq] at h
          simp only [List.zip_cons_cons, List.all_cons, Bool.and_eq_true, ih ys h,
            List.length_cons]
          constructor
          · rintro ⟨h0, hrest⟩ i hi
            cases i with
            | zero => simpa using h0
            | succ j =>
                simp only [List.getD_cons_succ]
                exact hrest j (by omega)
          · intro H
            refine ⟨by simpa using H 0 (by omega), fun j hj => ?_⟩
            have := H (j + 1) (by omega)
            simpa using this

theorem getD_zipmap_append :
    ∀ (xs os : List (List Nat)) (i : Nat), xs.length = os.length →
      ((xs.zip os).map fun p => p.1 ++ p.2).getD i [] = xs.getD i [] ++ os.getD i [] := by
  intro xs
  induction xs with
  | nil => intro os i h; cases os with
      | nil => simp
      | cons o os => simp at h
  | cons x xs ih =>
      intro os i h
      cases os with
      | nil => simp at h
      | cons o os =>
          simp only [List.length_cons, Nat.succ.injEq] at h
          cases i with
          | zero => simp
          | succ j => simpa using ih os j h

theorem bitsSubset_iff (g h : Nodegraph) :
    g.bitsSubset h = true ↔
      ∀ i x, x ∈ g.tables.getD i [] → x ∈ h.tables.getD i [] := by
  unfold Nodegraph.bitsSubset
  simp only [List.all_eq_true, List.mem_range, List.elem_iff, decide_eq_true_eq]
  constructor
  · intro H i x hx
    by_cases hi : i < g.tables.length
    · exact H i hi x hx
    · rw [List.getD_eq_default _ _ (by omega)] at hx
      cases hx
  · intro H i _ x hx
    exact H i x hx

theorem create_geomOK (fac : GraphFactory) :
    (fac.create_nodegraph).geomOK fac = true := by
  simp [GraphFactory.create_nodegraph, Nodegraph.geomOK]

theorem update_tables_length (g o : Nodegraph) (h : g.tables.length = o.tables.length) :
    (g.update o).tables.length = g.tables.length := by
  simp [Nodegraph.update, List.length_zip, h]

theorem geomOK_update {fac : GraphFactory} {g o : Nodegraph}
    (hg : g.geomOK fac = true) (ho : o.geomOK fac = true) :
    (g.update o).geomOK fac = true := by
  simp only [Nodegraph.geomOK, Bool.and_eq_true, beq_iff_eq] at hg ho ⊢
  refine ⟨by simpa [Nodegraph.update] using hg.1, ?_⟩
  have := update_tables_length g o (by omega)
  simpa [this] using hg.2

theorem bitsSubset_refl (g : Nodegraph) : g.bitsSubset g = true := by
  rw [bitsSubset_iff]; exact fun i x hx => hx

theorem bitsSubset_trans {g h k : Nodegraph}
    (h1 : g.bitsSubset h = true) (h2 : h.bitsSubset k = true) :
    g.bitsSubset k = true := by
  rw [bitsSubset_iff] at h1 h2 ⊢
  exact fun i x hx => h2 i x (h1 i x hx)

theorem bitsSubset_update_left (g o : Nodegraph)
    (h : g.tables.length = o.tables.length) :
    g.bitsSubset (g.update o) = true := by
  rw [bitsSubset_iff]
  intro i x hx
  rw [show (g.update o).tables = (g.tables.zip o.tables).map fun p => p.1 ++ p.2 from rfl,
    getD_zipmap_append _ _ _ h]
  exact List.mem_append.mpr (Or.inl hx)

theorem bitsSubset_update_right (g o : Nodegraph)
    (h : g.tables.length = o.tables.length) :
    o.bitsSubset (g.update o) = true := by
  rw [bitsSubset_iff]
  intro i x hx
  rw [show (g.update o).tables = (g.tables.zip o.tables).map fun p => p.1 ++ p.2 from rfl,
    getD_zipmap_append _ _ _ h]
  exact List.mem_append.mpr (Or.inr hx)

theorem get_mono {g h : Nodegraph} (k : String)
    (hts : g.tablesizes = h.tablesizes)
    (hg : g.tables.length = g.tablesizes.length)
    (hh : h.tables.length = h.tablesizes.length)
    (hsub : g.bitsSubset h = true)
    (hget : g.get k = true) : h.get k = true := by
  rw [Nodegraph.get, zip_all_getD _ [] 1 _ _ (by rw [hg])] at hget
  rw [Nodegraph.get, zip_all_getD _ [] 1 _ _ (by rw [hh])]
  intro i hi
  have hi' : i < g.tables.length := by rw [hg, hts]; omega
  have := hget i hi'
  simp only [List.elem_iff, decide_eq_true_eq] at this ⊢
  rw [← hts]
  exact (bitsSubset_iff g h).mp hsub i _ this

theorem geomOK_lengths {fac : GraphFactory} {g : Nodegraph} (h : g.geomOK fac = true) :
    g.tablesizes = fac.tablesizes ∧ g.tables.length = fac.tablesizes.length := by
  simpa [Nodegraph.geomOK] using h

theorem tables_length_eq {fac : GraphFactory} {g o : Nodegraph}
    (hg : g.geomOK fac = true) (ho : o.geomOK fac = true) :
    g.tables.length = o.tables.length := by
  rw [(geomOK_lengths hg).2, (geomOK_lengths ho).2]

theorem domLeaves_iff {g : Nodegraph} {c : SBTNode} :
    domLeaves g c = true ↔ ∀ l ∈ leavesOf c, l.graph.bitsSubset g = true := by
  simp [domLeaves, List.all_eq_true]

theorem domLeaves_mono {g h : Nodegraph} {c : SBTNode}
    (hd : domLeaves g c = true) (hsub : g.bitsSubset h = true) :
    domLeaves h c = true := by
  rw [domLeaves_iff] at hd ⊢
  exact fun l hl => bitsSubset_trans (hd l hl) hsub

theorem treeInv_geom {fac : GraphFactory} {t : SBTNode} (h : treeInv fac t = true) :
    t.graph.geomOK fac = true := by
  cases t with
  | Leaf m nm g => simpa [treeInv, SBTNode.graph] using h
  | Node g nm w subs =>
      simp only [treeInv, Bool.and_eq_true] at h
      simpa [SBTNode.graph] using h.1

theorem leavesOf_node (g : Nodegraph) (nm : String) (w : Nat) (subs : List SBTNode) :
    leavesOf (SBTNode.Node g nm w subs) = leavesList subs := by
  simp [leavesOf]

theorem leavesOf_leaf (m nm : String) (g : Nodegraph) :
    leavesOf (SBTNode.Leaf m nm g) = [SBTNode.Leaf m nm g] := by
  simp [leavesOf]

theorem treeInv_dom_self {fac : GraphFactory} {t : SBTNode} (h : treeInv fac t = true) :
    domLeaves t.graph t = true := by
  cases t with
  | Leaf m nm g =>
      rw [domLeaves_iff]
      intro l hl
      rw [leavesOf_leaf] at hl
      simp only [List.mem_singleton] at hl
      subst hl
      exact bitsSubset_refl _
  | Node g nm w subs =>
      simp only [treeInv, Bool.and_eq_true] at h
      rw [domLeaves_iff]
      intro l hl
      rw [leavesOf_node] at hl
      obtain ⟨c, hc, hlc⟩ := mem_leavesList.mp hl
      have := (subsInv_iff fac g subs).mp h.2 c hc
      exact domLeaves_iff.mp this.1 l hlc

theorem treeInv_leaf_geom {fac : GraphFactory} :
    ∀ (t : SBTNode), treeInv fac t = true →
      ∀ l ∈ leavesOf t, l.graph.geomOK fac = true := by
  intro t
  induction t using SBTNode.inductionOn with
  | hleaf m nm g =>
      intro h l hl
      rw [leavesOf_leaf] at hl
      simp only [List.mem_singleton] at hl
      subst hl
      simpa [treeInv, SBTNode.graph] using h
  | hnode g nm w subs ih =>
      intro h l hl
      rw [leavesOf_node] at hl
      obtain ⟨c, hc, hlc⟩ := mem_leavesList.mp hl
      simp only [treeInv, Bool.and_eq_true] at h
      exact ih c hc ((subsInv_iff fac g subs).mp h.2 c hc).2 l hlc

theorem isLeaf_shape {t : SBTNode} (h : t.isLeaf = true) :
    ∃ m nm g, t = SBTNode.Leaf m nm g := by
  cases t with
  | Leaf m nm g => exact ⟨m, nm, g, rfl⟩
  | Node _ _ _ _ => simp [SBTNode.isLeaf] at h

theorem treeInv_of_leaf {fac : GraphFactory} {t : SBTNode}
    (h : t.isLeaf = true) (hg : t.graph.geomOK fac = true) :
    treeInv fac t = true := by
  obtain ⟨m, nm, g, rfl⟩ := isLeaf_shape h
  simpa [treeInv, SBTNode.graph] using hg

theorem domLeaves_of_leaf {g : Nodegraph} {t : SBTNode}
    (h : t.isLeaf = true) (hb : t.graph.bitsSubset g = true) :
    domLeaves g t = true := by
  obtain ⟨m, nm, g0, rfl⟩ := isLeaf_shape h
  rw [domLeaves_iff]
  intro l hl
  rw [leavesOf_leaf] at hl
  simp only [List.mem_singleton] at hl
  subst hl
  exact hb

theorem pushdown_inv {fac : GraphFactory} {g : Nodegraph} {a b item : SBTNode}
    {rest : List SBTNode} (pf : Bool) (fname nm : String) (w : Nat)
    (hgeom : g.geomOK fac = true)
    (hsubs : subsInv fac g (a :: b :: rest) = true)
    (hitem : item.isLeaf = true) (hig : item.graph.geomOK fac = true) :
    treeInv fac (SBTNode.Node (g.update item.graph) nm (w + 2)
      ((if pf then b :: rest else a :: rest) ++
        [SBTNode.Node (((fac.create_nodegraph).update item.graph).update
          (if pf then a else b).graph) fname 2 [item, if pf then a else b]])) = true := by
  have hsubs' := (subsInv_iff fac g (a :: b :: rest)).mp hsubs
  have hsubn : (if pf then a else b) ∈ a :: b :: rest := by
    cases pf <;> simp
  obtain ⟨hdomsubn, hinvsubn⟩ := hsubs' _ hsubn
  have hsg : (if pf then a else b).graph.geomOK fac = true := treeInv_geom hinvsubn
  have hcg : (fac.create_nodegraph).geomOK fac = true := create_geomOK fac
  have hn1g : ((fac.create_nodegraph).update item.graph).geomOK fac = true :=
    geomOK_update hcg hig
  have hn2g : (((fac.create_nodegraph).update item.graph).update
      (if pf then a else b).graph).geomOK fac = true :=
    geomOK_update hn1g hsg
  have hg' : (g.update item.graph).geomOK fac = true := geomOK_update hgeom hig
  have hgsub : g.bitsSubset (g.update item.graph) = true :=
    bitsSubset_update_left g item.graph (tables_length_eq hgeom hig)
  have hisub : item.graph.bitsSubset (g.update item.graph) = true :=
    bitsSubset_update_right g item.graph (tables_length_eq hgeom hig)
  have hin2 : item.graph.bitsSubset (((fac.create_nodegraph).update item.graph).update
      (if pf then a else b).graph) = true :=
    bitsSubset_trans
      (bitsSubset_update_right _ item.graph (tables_length_eq hcg hig))
      (bitsSubset_update_left _ _ (tables_length_eq hn1g hsg))
  have hsn2 : (if pf then a else b).graph.bitsSubset
      (((fac.create_nodegraph).update item.graph).update
        (if pf then a else b).graph) = true :=
    bitsSubset_update_right _ _ (tables_length_eq hn1g hsg)
  simp only [treeInv, Bool.and_eq_true]
  refine ⟨hg', ?_⟩
  rw [subsInv_iff]
  intro c hc
  rcases List.mem_append.mp hc with hcr | hcn
  · -- a kept original child: weaken its domination from g to g.update item.graph
    have hcin : c ∈ a :: b :: rest := by
      cases pf <;> simp_all <;> tauto
    obtain ⟨hd, hi⟩ := hsubs' c hcin
    exact ⟨domLeaves_mono hd hgsub, hi⟩
  · -- the freshly created push-down node
    simp only [List.mem_singleton] at hcn
    subst hcn
    constructor
    · -- its leaves are item's leaf plus the detached child's leaves
      rw [domLeaves_iff]
      intro l hl
      rw [leavesOf_node] at hl
      simp only [leavesList, List.append_nil] at hl
      rcases List.mem_append.mp hl with hli | hls
      · obtain ⟨m, nmi, gi, rfl⟩ := isLeaf_shape hitem
        rw [leavesOf_leaf] at hli
        simp only [List.mem_singleton] at hli
        subst hli
        exact hisub
      · exact bitsSubset_trans (domLeaves_iff.mp hdomsubn l hls) hgsub
    · -- and it satisfies the invariant itself
      simp only [treeInv, Bool.and_eq_true]
      refine ⟨hn2g, ?_⟩
      rw [subsInv_iff]
      intro c hc2
      rcases List.mem_cons.mp hc2 with hc2 | hc2
      · subst hc2
        exact ⟨domLeaves_of_leaf hitem hin2, treeInv_of_leaf hitem hig⟩
      · simp only [List.mem_singleton] at hc2
        subst hc2
        exact ⟨domLeaves_mono (treeInv_dom_self hinvsubn) hsn2, hinvsubn⟩

theorem add_node_treeInv {fac : GraphFactory} {st : BuildState}
    {g : Nodegraph} {nm : String} {w : Nat} {subs : List SBTNode} {item : SBTNode}
    (hinv : treeInv fac (SBTNode.Node g nm w subs) = true)
    (hitem : item.isLeaf = true) (hig : item.graph.geomOK fac = true) :
    treeInv fac ((SBTNode.Node g nm w subs).add_node fac st item).1 = true := by
  simp only [treeInv, Bool.and_eq_true] at hinv
  obtain ⟨hgeom, hsubs⟩ := hinv
  have hg' : (g.update item.graph).geomOK fac = true := geomOK_update hgeom hig
  have hgsub : g.bitsSubset (g.update item.graph) = true :=
    bitsSubset_update_left g item.graph (tables_length_eq hgeom hig)
  have hisub : item.graph.bitsSubset (g.update item.graph) = true :=
    bitsSubset_update_right g item.graph (tables_length_eq hgeom hig)
  match subs with
  | [] =>
      simp only [SBTNode.add_node, treeInv, Bool.and_eq_true]
      refine ⟨hg', ?_⟩
      rw [subsInv_iff]
      intro c hc
      simp only [List.mem_singleton] at hc
      subst hc
      exact ⟨domLeaves_of_leaf hitem hisub, treeInv_of_leaf hitem hig⟩
  | [a] =>
      obtain ⟨hda, hia⟩ := (subsInv_iff fac g [a]).mp hsubs a (by simp)
      simp only [SBTNode.add_node, treeInv, Bool.and_eq_true]
      refine ⟨hg', ?_⟩
      rw [subsInv_iff]
      intro c hc
      rcases List.mem_cons.mp hc with hc | hc
      · subst hc
        exact ⟨domLeaves_mono hda hgsub, hia⟩
      · simp only [List.mem_singleton] at hc
        subst hc
        exact ⟨domLeaves_of_leaf hitem hisub, treeInv_of_leaf hitem hig⟩
  | a :: b :: rest =>
      simp only [SBTNode.add_node]
      by_cases hab : a.children = b.children
      · simp only [hab, if_true, eq_self_iff_true]
        cases hcoin : st.coins.headD true with
        | true =>
            simpa [hab, hcoin] using
              @pushdown_inv fac g a b item rest true _ nm w hgeom hsubs hitem hig
        | false =>
            simpa [hab, hcoin] using
              @pushdown_inv fac g a b item rest false _ nm w hgeom hsubs hitem hig
      · by_cases hlt : a.children < b.children
        · simpa [hab, hlt] using
            @pushdown_inv fac g a b item rest true _ nm w hgeom hsubs hitem hig
        · simpa [hab, hlt] using
            @pushdown_inv fac g a b item rest false _ nm w hgeom hsubs hitem hig

theorem add_node_not_leaf {fac : GraphFactory} {st : BuildState}
    (g : Nodegraph) (nm : String) (w : Nat) (subs : List SBTNode) (item : SBTNode) :
    ((SBTNode.Node g nm w subs).add_node fac st item).1.isLeaf = false := by
  match subs with
  | [] => simp [SBTNode.add_node, SBTNode.isLeaf]
  | [a] => simp [SBTNode.add_node, SBTNode.isLeaf]
  | a :: b :: rest => simp [SBTNode.add_node, SBTNode.isLeaf]

theorem not_leaf_shape {t : SBTNode} (h : t.isLeaf = false) :
    ∃ g nm w subs, t = SBTNode.Node g nm w subs := by
  cases t with
  | Node g nm w subs => exact ⟨g, nm, w, subs, rfl⟩
  | Leaf _ _ _ => simp [SBTNode.isLeaf] at h

theorem addAll_treeInv {fac : GraphFactory} :
    ∀ (items : List SBTNode) (t : SBTNode) (st : BuildState),
      (∀ i ∈ items, i.isLeaf = true ∧ i.graph.geomOK fac = true) →
      treeInv fac t = true → t.isLeaf = false →
      treeInv fac (addAll fac items (t, st)).1 = true ∧
        (addAll fac items (t, st)).1.isLeaf = false := by
  intro items
  induction items with
  | nil =>
      intro t st _ hi hn
      exact ⟨by simpa [addAll] using hi, by simpa [addAll] using hn⟩
  | cons item rest ih =>
      intro t st h hi hn
      obtain ⟨g, nm, w, subs, rfl⟩ := not_leaf_shape hn
      have hitem := h item (by simp)
      have step1 : treeInv fac ((SBTNode.Node g nm w subs).add_node fac st item).1 = true :=
        add_node_treeInv hi hitem.1 hitem.2
      have step2 := @add_node_not_leaf fac st g nm w subs item
      have : addAll fac (item :: rest) (SBTNode.Node g nm w subs, st) =
          addAll fac rest ((SBTNode.Node g nm w subs).add_node fac st item) := by
        simp [addAll]
      rw [this]
      have hrest : ∀ i ∈ rest, i.isLeaf = true ∧ i.graph.geomOK fac = true :=
        fun i hi2 => h i (by simp [hi2])
      have := ih ((SBTNode.Node g nm w subs).add_node fac st item).1
        ((SBTNode.Node g nm w subs).add_node fac st item).2 hrest step1 step2
      simpa using this

theorem buildTree_treeInv {fac : GraphFactory} {st : BuildState} {items : List SBTNode}
    (h : ∀ i ∈ items, i.isLeaf = true ∧ i.graph.geomOK fac = true) :
    treeInv fac (buildTree fac st items).1 = true := by
  have hroot : treeInv fac (newNode fac st).1 = true := by
    simp [newNode, treeInv, subsInv, create_geomOK]
  have hnl : (newNode fac st).1.isLeaf = false := by
    simp [newNode, SBTNode.isLeaf]
  have := addAll_treeInv items (newNode fac st).1 (newNode fac st).2 h hroot hnl
  simpa [buildTree] using this.1

theorem find_complete {fac : GraphFactory} {p : SBTNode → Bool} (hm : MonotonePred p) :
    ∀ t, treeInv fac t = true →
      ∀ l ∈ leavesOf t, p l = true → l ∈ SBTNode.find p t := by
  intro t
  induction t using SBTNode.inductionOn with
  | hleaf m nm g =>
      intro _ l hl hp
      rw [leavesOf_leaf] at hl
      simp only [List.mem_singleton] at hl
      subst hl
      simp [SBTNode.find, hp]
  | hnode g nm w subs ih =>
      intro hinv l hl hp
      simp only [treeInv, Bool.and_eq_true] at hinv
      obtain ⟨hgeom, hsubs⟩ := hinv
      rw [leavesOf_node] at hl
      obtain ⟨c, hc, hlc⟩ := mem_leavesList.mp hl
      obtain ⟨hdom, hcinv⟩ := (subsInv_iff fac g subs).mp hsubs c hc
      have hlg : l.graph.geomOK fac = true := treeInv_leaf_geom c hcinv l hlc
      have hbits : l.graph.bitsSubset g = true := domLeaves_iff.mp hdom l hlc
      have hnodep : p (SBTNode.Node g nm w subs) = true := by
        refine hm l (SBTNode.Node g nm w subs) ?_ ?_ ?_ hbits hp
        · show l.graph.tablesizes = g.tablesizes
          rw [(geomOK_lengths hlg).1, (geomOK_lengths hgeom).1]
        · show l.graph.tables.length = l.graph.tablesizes.length
          rw [(geomOK_lengths hlg).2, (geomOK_lengths hlg).1]
        · show g.tables.length = g.tablesizes.length
          rw [(geomOK_lengths hgeom).2, (geomOK_lengths hgeom).1]
      have hrec : l ∈ SBTNode.find p c := ih c hc hcinv l hlc hp
      have : SBTNode.find p (SBTNode.Node g nm w subs) = findList p subs := by
        simp [SBTNode.find, hnodep]
      rw [this]
      exact mem_findList hc hrec

theorem treeInv_subtree {fac : GraphFactory} :
    ∀ t, treeInv fac t = true → ∀ s ∈ subtreesOf t, treeInv fac s = true := by
  intro t
  induction t using SBTNode.inductionOn with
  | hleaf m nm g =>
      intro h s hs
      simp only [subtreesOf, List.mem_singleton] at hs
      subst hs
      exact h
  | hnode g nm w subs ih =>
      intro h s hs
      simp only [subtreesOf, List.mem_cons] at hs
      rcases hs with hs | hs
      · subst hs; exact h
      · obtain ⟨c, hc, hsc⟩ := mem_subtreesList.mp hs
        simp only [treeInv, Bool.and_eq_true] at h
        exact ih c hc ((subsInv_iff fac g subs).mp h.2 c hc).2 s hsc

theorem search_kmer_monotone (s : String) : MonotonePred (search_kmer s) := by
  intro t u hts ht hu hsub hp
  simp only [search_kmer] at hp ⊢
  exact get_mono s hts ht hu hsub hp

/-- C1.  Pruning soundness: for every tree built from a fresh root
purely by `add_node` calls (on leaves of the factory's geometry) and
for every monotone predicate, `find` on the root contains every leaf
that a brute-force evaluation of the predicate over all leaves
(ignoring the aggregated node filters) would return. -/
theorem pruning_soundness (fac : GraphFactory) (st : BuildState) (items : List SBTNode)
    (p : SBTNode → Bool) (hp : MonotonePred p)
    (hitems : ∀ i ∈ items, i.isLeaf = true ∧ i.graph.geomOK fac = true) :
    ∀ l ∈ (leavesOf (buildTree fac st items).1).filter p,
      l ∈ SBTNode.find p (buildTree fac st items).1 := by
  intro l hl
  rw [List.mem_filter] at hl
  exact find_complete hp _ (buildTree_treeInv hitems) l hl.1 hl.2

/-- Witness for C1: the five-dataset build with the `search_kmer`
predicate for AAAAT; every brute-force hit is returned by `find`. -/
theorem pruning_soundness_witness :
    MonotonePred (search_kmer "AAAAT") ∧
    (∀ i ∈ [leafA, leafB, leafC, leafD, leafE],
        i.isLeaf = true ∧ i.graph.geomOK factory0 = true) ∧
    ∀ l ∈ (leavesOf (buildTree factory0 (BuildState.mk [true, false] 0)
          [leafA, leafB, leafC, leafD, leafE]).1).filter (search_kmer "AAAAT"),
      l ∈ SBTNode.find (search_kmer "AAAAT")
        (buildTree factory0 (BuildState.mk [true, false] 0)
          [leafA, leafB, leafC, leafD, leafE]).1 :=
  ⟨search_kmer_monotone "AAAAT", by decide,
    pruning_soundness factory0 (BuildState.mk [true, false] 0)
      [leafA, leafB, leafC, leafD, leafE] (search_kmer "AAAAT")
      (search_kmer_monotone "AAAAT") (by decide)⟩

/-- C2.  Aggregation invariant: after any sequence of `add_node` calls
from a fresh root, every node of the tree has, in its filter, every
set bit of every descendant leaf's filter — hence any k-mer reported
present by a descendant leaf is reported present by the ancestor. -/
theorem aggregation_invariant (fac : GraphFactory) (st : BuildState) (items : List SBTNode)
    (hitems : ∀ i ∈ items, i.isLeaf = true ∧ i.graph.geomOK fac = true) :
    ∀ s ∈ subtreesOf (buildTree fac st items).1, ∀ l ∈ leavesOf s,
      l.graph.bitsSubset s.graph = true ∧
      ∀ km : String, l.graph.get km = true → s.graph.get km = true := by
  intro s hs l hl
  have hroot := @buildTree_treeInv fac st items hitems
  have hsinv := treeInv_subtree _ hroot s hs
  have hbits := domLeaves_iff.mp (treeInv_dom_self hsinv) l hl
  have hlg := treeInv_leaf_geom s hsinv l hl
  have hsg := treeInv_geom hsinv
  refine ⟨hbits, fun km hk => ?_⟩
  refine get_mono km ?_ ?_ ?_ hbits hk
  · rw [(geomOK_lengths hlg).1, (geomOK_lengths hsg).1]
  · rw [(geomOK_lengths hlg).2, (geomOK_lengths hlg).1]
  · rw [(geomOK_lengths hsg).2, (geomOK_lengths hsg).1]

/-- Witness for C2: the aggregation invariant holds of the concrete
five-dataset build. -/
theorem aggregation_invariant_witness :
    (∀ i ∈ [leafA, leafB, leafC, leafD, leafE],
        i.isLeaf = true ∧ i.graph.geomOK factory0 = true) ∧
    ∀ s ∈ subtreesOf (buildTree factory0 (BuildState.mk [false, true] 0)
          [leafA, leafB, leafC, leafD, leafE]).1, ∀ l ∈ leavesOf s,
      l.graph.bitsSubset s.graph = true ∧
      ∀ km : String, l.graph.get km = true → s.graph.get km = true :=
  ⟨by decide,
    aggregation_invariant factory0 (BuildState.mk [false, true] 0)
      [leafA, leafB, leafC, leafD, leafE] (by decide)⟩

/-- C3.  Insertion algorithm: with fewer than two subnodes the item is
appended and its filter unioned in (`children + 1`); with exactly two
subnodes the strictly lighter child (the coin's pick on a tie,
consuming one coin) is detached, a fresh factory node absorbs the item
and then the detached child, and replaces the detached child
(`children + 2`). -/
theorem add_node_cases (fac : GraphFactory) (st : BuildState)
    (g : Nodegraph) (nm : String) (w : Nat) (item a b : SBTNode) :
    ((SBTNode.Node g nm w []).add_node fac st item =
        (SBTNode.Node (g.update item.graph) nm (w + 1) [item], st)) ∧
    ((SBTNode.Node g nm w [a]).add_node fac st item =
        (SBTNode.Node (g.update item.graph) nm (w + 1) [a, item], st)) ∧
    (a.children < b.children →
      (SBTNode.Node g nm w [a, b]).add_node fac st item =
        (SBTNode.Node (g.update item.graph) nm (w + 2)
          [b, SBTNode.Node (((fac.create_nodegraph).update item.graph).update a.graph)
            ("internal." ++ toString st.nNodes) 2 [item, a]],
         BuildState.mk st.coins (st.nNodes + 1))) ∧
    (b.children < a.children →
      (SBTNode.Node g nm w [a, b]).add_node fac st item =
        (SBTNode.Node (g.update item.graph) nm (w + 2)
          [a, SBTNode.Node (((fac.create_nodegraph).update item.graph).update b.graph)
            ("internal." ++ toString st.nNodes) 2 [item, b]],
         BuildState.mk st.coins (st.nNodes + 1))) ∧
    (a.children = b.children →
      (SBTNode.Node g nm w [a, b]).add_node fac st item =
        (SBTNode.Node (g.update item.graph) nm (w + 2)
          ((if st.coins.headD true then [b] else [a]) ++
            [SBTNode.Node (((fac.create_nodegraph).update item.graph).update
                (if st.coins.headD true then a else b).graph)
              ("internal." ++ toString st.nNodes) 2
              [item, if st.coins.headD true then a else b]]),
         BuildState.mk st.coins.tail (st.nNodes + 1))) := by
  refine ⟨by simp [SBTNode.add_node], by simp [SBTNode.add_node], ?_, ?_, ?_⟩
  · intro hlt
    have hne : ¬ a.children = b.children := by omega
    simp [SBTNode.add_node, hne, hlt]
  · intro hlt
    have hne : ¬ a.children = b.children := by omega
    have hnlt : ¬ a.children < b.children := by omega
    simp [SBTNode.add_node, hne, hnlt]
  · intro hab
    obtain ⟨coins, nn⟩ := st
    cases coins with
    | nil => simp [SBTNode.add_node, hab]
    | cons c cs =>
        cases c with
        | true => simp [SBTNode.add_node, hab]
        | false => simp [SBTNode.add_node, hab]

/-- Witness for C3: the three branch shapes at concrete inputs (a
lighter first child, a lighter second child, and a tie). -/
theorem add_node_cases_witness :
    ((SBTNode.Node factory0.create_nodegraph "r" 0 []).add_node factory0
        (BuildState.mk [true] 0) leafA =
      (SBTNode.Node (factory0.create_nodegraph.update leafA.graph) "r" 1 [leafA],
       BuildState.mk [true] 0)) ∧
    (leafB.children < (SBTNode.Node factory0.create_nodegraph "x" 1 [leafA]).children ∧
      (SBTNode.Node factory0.create_nodegraph "r" 2
          [leafB, SBTNode.Node factory0.create_nodegraph "x" 1 [leafA]]).add_node factory0
          (BuildState.mk [true] 5) leafC =
        (SBTNode.Node (factory0.create_nodegraph.update leafC.graph) "r" 4
          [SBTNode.Node factory0.create_nodegraph "x" 1 [leafA],
           SBTNode.Node (((factory0.create_nodegraph).update leafC.graph).update leafB.graph)
             ("internal." ++ toString (5 : Nat)) 2 [leafC, leafB]],
         BuildState.mk [true] 6)) ∧
    (leafA.children = leafB.children ∧
      (SBTNode.Node factory0.create_nodegraph "r" 2 [leafA, leafB]).add_node factory0
          (BuildState.mk [false] 7) leafC =
        (SBTNode.Node (factory0.create_nodegraph.update leafC.graph) "r" 4
          ((if (BuildState.mk [false] 7).coins.headD true then [leafB] else [leafA]) ++
            [SBTNode.Node (((factory0.create_nodegraph).update leafC.graph).update
                (if (BuildState.mk [false] 7).coins.headD true then leafA else leafB).graph)
              ("internal." ++ toString (7 : Nat)) 2
              [leafC, if (BuildState.mk [false] 7).coins.headD true then leafA else leafB]]),
         BuildState.mk [] 8)) :=
  ⟨(add_node_cases factory0 (BuildState.mk [true] 0) factory0.create_nodegraph "r" 0
      leafA leafA leafA).1,
   ⟨by decide,
    (add_node_cases factory0 (BuildState.mk [true] 5) factory0.create_nodegraph "r" 2
      leafC leafB (SBTNode.Node factory0.create_nodegraph "x" 1 [leafA])).2.2.1
      (by decide)⟩,
   ⟨by decide,
    (add_node_cases factory0 (BuildState.mk [false] 7) factory0.create_nodegraph "r" 2
      leafC leafA leafB).2.2.2.2 (by decide)⟩⟩


theorem add_node_two_lt {fac : GraphFactory} {st : BuildState}
    {g : Nodegraph} {nm : String} {w : Nat} {a b item : SBTNode} {rest : List SBTNode}
    (hlt : a.children < b.children) :
    (SBTNode.Node g nm w (a :: b :: rest)).add_node fac st item =
      (SBTNode.Node (g.update item.graph) nm (w + 2)
        ((b :: rest) ++
          [SBTNode.Node (((fac.create_nodegraph).update item.graph).update a.graph)
            ("internal." ++ toString st.nNodes) 2 [item, a]]),
       BuildState.mk st.coins (st.nNodes + 1)) := by
  have hne : ¬ a.children = b.children := by omega
  simp [SBTNode.add_node, hne, hlt]

theorem add_node_two_gt {fac : GraphFactory} {st : BuildState}
    {g : Nodegraph} {nm : String} {w : Nat} {a b item : SBTNode} {rest : List SBTNode}
    (hgt : b.children < a.children) :
    (SBTNode.Node g nm w (a :: b :: rest)).add_node fac st item =
      (SBTNode.Node (g.update item.graph) nm (w + 2)
        ((a :: rest) ++
          [SBTNode.Node (((fac.create_nodegraph).update item.graph).update b.graph)
            ("internal." ++ toString st.nNodes) 2 [item, b]]),
       BuildState.mk st.coins (st.nNodes + 1)) := by
  have hne : ¬ a.children = b.children := by omega
  have hnlt : ¬ a.children < b.children := by omega
  simp [SBTNode.add_node, hne, hnlt]

theorem add_node_two_tie {fac : GraphFactory} {st : BuildState}
    {g : Nodegraph} {nm : String} {w : Nat} {a b item : SBTNode} {rest : List SBTNode}
    (hab : a.children = b.children) :
    (SBTNode.Node g nm w (a :: b :: rest)).add_node fac st item =
      (SBTNode.Node (g.update item.graph) nm (w + 2)
        ((if st.coins.headD true then b :: rest else a :: rest) ++
          [SBTNode.Node (((fac.create_nodegraph).update item.graph).update
              (if st.coins.headD true then a else b).graph)
            ("internal." ++ toString st.nNodes) 2
            [item, if st.coins.headD true then a else b]]),
       BuildState.mk st.coins.tail (st.nNodes + 1)) := by
  obtain ⟨coins, nn⟩ := st
  cases coins with
  | nil => simp [SBTNode.add_node, hab]
  | cons c cs =>
      cases c with
      | true => simp [SBTNode.add_node, hab]
      | false => simp [SBTNode.add_node, hab]

theorem add_node_count {fac : GraphFactory} {st : BuildState}
    {g : Nodegraph} {nm : String} {w : Nat} {subs : List SBTNode} {item : SBTNode}
    (hitem : item.isLeaf = true)
    (hcnt : countNodes (SBTNode.Node g nm w subs) = w + 1) :
    countNodes ((SBTNode.Node g nm w subs).add_node fac st item).1 =
      ((SBTNode.Node g nm w subs).add_node fac st item).1.children + 1 := by
  obtain ⟨m, nmi, gi, hitem'⟩ := isLeaf_shape hitem
  match subs with
  | [] =>
      simp only [countNodes, countList] at hcnt
      subst hitem'
      simp [SBTNode.add_node, countNodes, countList, SBTNode.children]
      omega
  | [a] =>
      simp only [countNodes, countList] at hcnt
      subst hitem'
      simp [SBTNode.add_node, countNodes, countList, SBTNode.children]
      omega
  | a :: b :: rest =>
      simp only [countNodes, countList] at hcnt
      rcases Nat.lt_trichotomy a.children b.children with hlt | hab | hgt
      · rw [add_node_two_lt hlt]
        subst hitem'
        simp [countNodes, countList, countList_append, SBTNode.children]
        omega
      · rw [add_node_two_tie hab]
        cases hcoin : st.coins.headD true with
        | true =>
            subst hitem'
            simp only [hcoin, if_true]
            simp [countNodes, countList, countList_append, SBTNode.children]
            omega
        | false =>
            subst hitem'
            simp only [hcoin, if_false, Bool.false_eq_true]
            simp [countNodes, countList, countList_append, SBTNode.children]
            omega
      · rw [add_node_two_gt hgt]
        subst hitem'
        simp [countNodes, countList, countList_append, SBTNode.children]
        omega

theorem addAll_count {fac : GraphFactory} :
    ∀ (items : List SBTNode) (t : SBTNode) (st : BuildState),
      (∀ i ∈ items, i.isLeaf = true) →
      t.isLeaf = false →
      countNodes t = t.children + 1 →
      countNodes (addAll fac items (t, st)).1 =
        (addAll fac items (t, st)).1.children + 1 ∧
      (addAll fac items (t, st)).1.isLeaf = false := by
  intro items
  induction items with
  | nil =>
      intro t st _ hn hcnt
      exact ⟨by simpa [addAll] using hcnt, by simpa [addAll] using hn⟩
  | cons item rest ih =>
      intro t st h hn hcnt
      obtain ⟨g, nm, w, subs, rfl⟩ := not_leaf_shape hn
      have hitem := h item (by simp)
      have step1 := @add_node_count fac st g nm w subs item hitem hcnt
      have step2 := @add_node_not_leaf fac st g nm w subs item
      have heq : addAll fac (item :: rest) (SBTNode.Node g nm w subs, st) =
          addAll fac rest ((SBTNode.Node g nm w subs).add_node fac st item) := by
        simp [addAll]
      rw [heq]
      have hrest : ∀ i ∈ rest, i.isLeaf = true := fun i hi2 => h i (by simp [hi2])
      have := ih ((SBTNode.Node g nm w subs).add_node fac st item).1
        ((SBTNode.Node g nm w subs).add_node fac st item).2 hrest step2 step1
      simpa using this

theorem add_node_children_step (fac : GraphFactory) (st : BuildState) (g : Nodegraph)
    (nm : String) (w : Nat) (subs : List SBTNode) (item : SBTNode) :
    ((SBTNode.Node g nm w subs).add_node fac st item).1.children =
      w + (if subs.length < 2 then 1 else 2) := by
  match subs with
  | [] => simp [SBTNode.add_node, SBTNode.children]
  | [a] => simp [SBTNode.add_node, SBTNode.children]
  | a :: b :: rest =>
      have hlen : ¬ (a :: b :: rest).length < 2 := by
        simp only [List.length_cons]
        omega
      rw [if_neg hlen]
      rcases Nat.lt_trichotomy a.children b.children with hlt | hab | hgt
      · rw [add_node_two_lt hlt]; rfl
      · rw [add_node_two_tie hab]; rfl
      · rw [add_node_two_gt hgt]; rfl

/-- C4.  Weight accounting: `children` never decreases under
`add_node`; a leaf's `children` is 0; each `add_node` on an internal
node adds exactly 1 (direct attach, fewer than two subnodes) or 2
(push-down); and for a tree built from a fresh root by adding leaves,
`children + 1` — the `size` that `save_sbt` writes — is the total
vertex count of the tree. -/
theorem weight_accounting :
    (∀ (fac : GraphFactory) (st : BuildState) (t item : SBTNode),
        t.children ≤ ((t.add_node fac st item).1).children) ∧
    (∀ (m nm : String) (g : Nodegraph), (SBTNode.Leaf m nm g).children = 0) ∧
    (∀ (fac : GraphFactory) (st : BuildState) (g : Nodegraph) (nm : String) (w : Nat)
        (subs : List SBTNode) (item : SBTNode),
        ((SBTNode.Node g nm w subs).add_node fac st item).1.children =
          w + (if subs.length < 2 then 1 else 2)) ∧
    (∀ (fac : GraphFactory) (st : BuildState) (items : List SBTNode),
        (∀ i ∈ items, i.isLeaf = true) →
        countNodes (buildTree fac st items).1 =
          (buildTree fac st items).1.children + 1) ∧
    (∀ (fac : GraphFactory) (st : BuildState) (items : List SBTNode) (tag : String)
        (d : SbtDoc),
        (∀ i ∈ items, i.isLeaf = true) →
        save_sbt (buildTree fac st items).1 tag = some d →
        d.sizeF = some (countNodes (buildTree fac st items).1)) := by
  have hcount : ∀ (fac : GraphFactory) (st : BuildState) (items : List SBTNode),
      (∀ i ∈ items, i.isLeaf = true) →
      countNodes (buildTree fac st items).1 =
        (buildTree fac st items).1.children + 1 := by
    intro fac st items h
    have hroot : countNodes (newNode fac st).1 = (newNode fac st).1.children + 1 := by
      simp [newNode, countNodes, countList, SBTNode.children]
    have hnl : (newNode fac st).1.isLeaf = false := by
      simp [newNode, SBTNode.isLeaf]
    have := @addAll_count fac items (newNode fac st).1 (newNode fac st).2 h hnl hroot
    simpa [buildTree] using this.1
  refine ⟨?_, fun m nm g => rfl, add_node_children_step, hcount, ?_⟩
  · intro fac st t item
    cases t with
    | Leaf m nm g => exact Nat.le.refl
    | Node g nm w subs =>
        rw [add_node_children_step fac st g nm w subs item]
        show w ≤ w + _
        split <;> omega
  · intro fac st items tag d h hsave
    simp only [save_sbt] at hsave
    cases hnode : save_node tag (buildTree fac st items).1 with
    | none => rw [hnode] at hsave; simp at hsave
    | some d0 =>
        rw [hnode] at hsave
        simp only [Option.map_some', Option.some.injEq] at hsave
        rw [← hsave]
        simp [SbtDoc.sizeF, hcount fac st items h]

/-- Witness for C4: the three-dataset build has `children + 1` equal
to its total vertex count. -/
theorem weight_accounting_witness :
    (∀ i ∈ [leafA, leafB, leafC], i.isLeaf = true) ∧
    countNodes (buildTree factory0 (BuildState.mk [true] 0) [leafA, leafB, leafC]).1 =
      (buildTree factory0 (BuildState.mk [true] 0) [leafA, leafB, leafC]).1.children + 1 :=
  ⟨by decide,
    weight_accounting.2.2.2.1 factory0 (BuildState.mk [true] 0) [leafA, leafB, leafC]
      (by decide)⟩

theorem addAll_shape {fac : GraphFactory} :
    ∀ (items : List SBTNode) (t : SBTNode) (st : BuildState) (k : Nat),
      (∀ i ∈ items, i.isLeaf = true) →
      (∃ g nm w subs, t = SBTNode.Node g nm w subs ∧ subs.length = min k 2 ∧
        allTwoList subs = true) →
      ∃ g nm w subs, (addAll fac items (t, st)).1 = SBTNode.Node g nm w subs ∧
        subs.length = min (k + items.length) 2 ∧ allTwoList subs = true := by
  intro items
  induction items with
  | nil =>
      intro t st k _ ht
      simpa [addAll] using ht
  | cons item rest ih =>
      intro t st k h ht
      obtain ⟨g, nm, w, subs, rfl, hlen, htwo⟩ := ht
      have hitem : item.isLeaf = true := h item (by simp)
      have hrest : ∀ i ∈ rest, i.isLeaf = true := fun i hi2 => h i (by simp [hi2])
      have heq : addAll fac (item :: rest) (SBTNode.Node g nm w subs, st) =
          addAll fac rest ((SBTNode.Node g nm w subs).add_node fac st item) := by
        simp [addAll]
      rw [heq]
      have hitemTwo : allTwoB item = true := by
        obtain ⟨m, nmi, gi, rfl⟩ := isLeaf_shape hitem
        simp [allTwoB]
      have hstep : ∃ g2 nm2 w2 subs2,
          ((SBTNode.Node g nm w subs).add_node fac st item).1 =
            SBTNode.Node g2 nm2 w2 subs2 ∧ subs2.length = min (k + 1) 2 ∧
          allTwoList subs2 = true := by
        cases subs with
        | nil =>
            have hk0 : k = 0 := by
              simp only [List.length_nil] at hlen
              omega
            refine ⟨g.update item.graph, nm, w + 1, [item],
              by simp [SBTNode.add_node], ?_, ?_⟩
            · subst hk0; simp
            · simp [allTwoList, hitemTwo]
        | cons a tl =>
            cases tl with
            | nil =>
                have hk1 : k = 1 := by
                  simp only [List.length_cons, List.length_nil] at hlen
                  omega
                have ha : allTwoB a = true := (allTwoList_iff _).mp htwo a (by simp)
                refine ⟨g.update item.graph, nm, w + 1, [a, item],
                  by simp [SBTNode.add_node], ?_, ?_⟩
                · subst hk1; simp
                · simp [allTwoList, hitemTwo, ha]
            | cons b rest2 =>
                have hr0 : rest2.length = 0 ∧ 2 ≤ k := by
                  simp only [List.length_cons] at hlen
                  omega
                obtain ⟨hr0, hk2⟩ := hr0
                have hr2 : rest2 = [] := List.eq_nil_of_length_eq_zero hr0
                subst hr2
                have hmin : min (k + 1) 2 = 2 := by omega
                have ha : allTwoB a = true := (allTwoList_iff _).mp htwo a (by simp)
                have hb : allTwoB b = true := (allTwoList_iff _).mp htwo b (by simp)
                have hn2 : ∀ s : SBTNode, allTwoB s = true →
                    allTwoB (SBTNode.Node (((fac.create_nodegraph).update item.graph).update
                      s.graph) ("internal." ++ toString st.nNodes) 2 [item, s]) = true := by
                  intro s hs
                  simp [allTwoB, allTwoList, hitemTwo, hs]
                rcases Nat.lt_trichotomy a.children b.children with hlt | hab | hgt
                · refine ⟨_, _, _, _, by rw [add_node_two_lt hlt], by simp [hmin], ?_⟩
                  simp [allTwoList, hb, hn2 a ha]
                · rw [add_node_two_tie hab]
                  cases hcoin : st.coins.headD true with
                  | true =>
                      refine ⟨_, _, _, _, rfl, ?_, ?_⟩
                      · simp [hcoin, hmin]
                      · simp [hcoin, allTwoList, hb, hn2 a ha]
                  | false =>
                      refine ⟨_, _, _, _, rfl, ?_, ?_⟩
                      · simp [hcoin, hmin]
                      · simp [hcoin, allTwoList, ha, hn2 b hb]
                · refine ⟨_, _, _, _, by rw [add_node_two_gt hgt], by simp [hmin], ?_⟩
                  simp [allTwoList, ha, hn2 b hb]
      obtain ⟨g2, nm2, w2, subs2, heq2, hlen2, htwo2⟩ := hstep
      have := ih ((SBTNode.Node g nm w subs).add_node fac st item).1
        ((SBTNode.Node g nm w subs).add_node fac st item).2 (k + 1) hrest
        ⟨g2, nm2, w2, subs2, heq2, hlen2, htwo2⟩
      have harith : k + 1 + rest.length = k + (rest.length + 1) := by omega
      simpa [harith] using this

theorem save_node_isSome {tag : String} :
    ∀ t, allTwoB t = true → (save_node tag t).isSome = true := by
  intro t
  induction t using SBTNode.inductionOn with
  | hleaf m nm g => intro _; simp [save_node]
  | hnode g nm w subs ih =>
      intro h
      simp only [allTwoB, Bool.and_eq_true, beq_iff_eq] at h
      obtain ⟨hlen, htwo⟩ := h
      obtain ⟨a, b, rfl⟩ := List.length_eq_two.mp hlen
      have ha := ih a (by simp) ((allTwoList_iff _).mp htwo a (by simp))
      have hb := ih b (by simp) ((allTwoList_iff _).mp htwo b (by simp))
      rw [Option.isSome_iff_exists] at ha hb
      obtain ⟨da, hda⟩ := ha
      obtain ⟨db, hdb⟩ := hb
      simp [save_node, hda, hdb]

/-- C10.  Implicit arity invariant: after any sequence of `add_node`
calls of leaves on a fresh root, every internal node strictly below
the root has exactly two subnodes (recursively), so `save_node` — 
which reads `subnodes[0]` and `subnodes[1]` unconditionally — 
succeeds on every child of the root. -/
theorem internal_nodes_binary (fac : GraphFactory) (st : BuildState) (items : List SBTNode)
    (h : ∀ i ∈ items, i.isLeaf = true) :
    allTwoList (buildTree fac st items).1.subnodesOf = true ∧
    ∀ (tag : String), ∀ c ∈ (buildTree fac st items).1.subnodesOf,
      (save_node tag c).isSome = true := by
  have hroot : ∃ g nm w subs, (newNode fac st).1 = SBTNode.Node g nm w subs ∧
      subs.length = min 0 2 ∧ allTwoList subs = true :=
    ⟨_, _, _, _, rfl, by simp, by simp [allTwoList]⟩
  have hall := @addAll_shape fac items (newNode fac st).1 (newNode fac st).2 0 h hroot
  obtain ⟨g, nm, w, subs, heq, hlen, htwo⟩ := hall
  have heq2 : (buildTree fac st items).1 = SBTNode.Node g nm w subs := by
    simpa [buildTree] using heq
  rw [heq2]
  refine ⟨by simpa [SBTNode.subnodesOf] using htwo, ?_⟩
  intro tag c hc
  exact save_node_isSome c
    ((allTwoList_iff _).mp htwo c (by simpa [SBTNode.subnodesOf] using hc))

/-- Witness for C10: the three-dataset build. -/
theorem internal_nodes_binary_witness :
    (∀ i ∈ [leafA, leafB, leafC], i.isLeaf = true) ∧
    allTwoList (buildTree factory0 (BuildState.mk [false] 0)
      [leafA, leafB, leafC]).1.subnodesOf = true ∧
    ∀ (tag : String), ∀ c ∈ (buildTree factory0 (BuildState.mk [false] 0)
        [leafA, leafB, leafC]).1.subnodesOf,
      (save_node tag c).isSome = true :=
  ⟨by decide,
    internal_nodes_binary factory0 (BuildState.mk [false] 0) [leafA, leafB, leafC]
      (by decide)⟩

theorem save_load_node (tag : String) (fac2 : GraphFactory) :
    ∀ t, allTwoB t = true →
      ∃ d, save_node tag t = some d ∧ load_node fac2 d = Except.ok t ∧
        d.filenameF = some (node_fn t.nameOf tag) ∧ d.blobF = some t.graph := by
  intro t
  induction t using SBTNode.inductionOn with
  | hleaf m nm g =>
      intro _
      exact ⟨_, rfl, rfl, rfl, rfl⟩
  | hnode g nm w subs ih =>
      intro h
      simp only [allTwoB, Bool.and_eq_true, beq_iff_eq] at h
      obtain ⟨hlen, htwo⟩ := h
      obtain ⟨a, b, rfl⟩ := List.length_eq_two.mp hlen
      obtain ⟨da, hda, hla, _, _⟩ := ih a (by simp) ((allTwoList_iff _).mp htwo a (by simp))
      obtain ⟨db, hdb, hlb, _, _⟩ := ih b (by simp) ((allTwoList_iff _).mp htwo b (by simp))
      refine ⟨Doc.mk (some (node_fn nm tag)) (some nm) (some w) none
        (some da) (some db) (some g), ?_, ?_, rfl, rfl⟩
      · simp [save_node, hda, hdb]
      · simp only [load_node, hla, hlb]
        rfl

theorem load_sbt_eq {s : Option Nat} {d : Doc} {fn : String} {g : Nodegraph}
    (hfn : d.filenameF = some fn) (hg : d.blobF = some g) :
    load_sbt (SbtDoc.mk s (some d)) =
      load_node (GraphFactory.mk g.ksize g.tablesizes) d := by
  obtain ⟨f1, n1, c1, m1, l1, r1, b1⟩ := d
  simp only [Doc.filenameF] at hfn
  simp only [Doc.blobF] at hg
  subst hfn
  subst hg
  rfl

/-- C5.  Persistence round trip: saving a tree built from at least two
leaf `add_node` calls succeeds, and loading the saved document yields
the very same tree — same topology, names, filters and persisted
`children` weights — so `find` answers identically on it. -/
theorem save_load_roundtrip (fac : GraphFactory) (st : BuildState) (items : List SBTNode)
    (tag : String) (h1 : ∀ i ∈ items, i.isLeaf = true) (h2 : 2 ≤ items.length) :
    ∃ d T2, save_sbt (buildTree fac st items).1 tag = some d ∧
      load_sbt d = Except.ok T2 ∧ T2 = (buildTree fac st items).1 ∧
      ∀ p : SBTNode → Bool,
        SBTNode.find p T2 = SBTNode.find p (buildTree fac st items).1 := by
  have hroot : ∃ g nm w subs, (newNode fac st).1 = SBTNode.Node g nm w subs ∧
      subs.length = min 0 2 ∧ allTwoList subs = true :=
    ⟨_, _, _, _, rfl, by simp, by simp [allTwoList]⟩
  obtain ⟨g, nm, w, subs, heq, hlen, htwo⟩ :=
    @addAll_shape fac items (newNode fac st).1 (newNode fac st).2 0 h1 hroot
  have heq2 : (buildTree fac st items).1 = SBTNode.Node g nm w subs := by
    simpa [buildTree] using heq
  have hlen2 : subs.length = 2 := by rw [hlen]; omega
  have hTwo : allTwoB (buildTree fac st items).1 = true := by
    rw [heq2]; simp [allTwoB, hlen2, htwo]
  obtain ⟨d, hsave, hload, hfn, hblob⟩ :=
    save_load_node tag
      (GraphFactory.mk ((buildTree fac st items).1.graph.ksize)
        ((buildTree fac st items).1.graph.tablesizes))
      (buildTree fac st items).1 hTwo
  refine ⟨SbtDoc.mk (some ((buildTree fac st items).1.children + 1)) (some d),
    (buildTree fac st items).1, ?_, ?_, rfl, fun p => rfl⟩
  · simp [save_sbt, hsave]
  · rw [load_sbt_eq hfn hblob]
    exact hload

/-- Witness for C5: the two-dataset build round-trips through the
persisted document. -/
theorem save_load_roundtrip_witness :
    (∀ i ∈ [leafA, leafB], i.isLeaf = true) ∧ 2 ≤ ([leafA, leafB] : List SBTNode).length ∧
    ∃ d T2, save_sbt (buildTree factory0 (BuildState.mk [] 0) [leafA, leafB]).1 "tag" =
        some d ∧
      load_sbt d = Except.ok T2 ∧
      T2 = (buildTree factory0 (BuildState.mk [] 0) [leafA, leafB]).1 ∧
      ∀ p : SBTNode → Bool,
        SBTNode.find p T2 =
          SBTNode.find p (buildTree factory0 (BuildState.mk [] 0) [leafA, leafB]).1 :=
  ⟨by decide, by decide,
    save_load_roundtrip factory0 (BuildState.mk [] 0) [leafA, leafB] "tag"
      (by decide) (by decide)⟩

/-- A concrete well-formed leaf record, used to exercise `load_node`
on internal records whose left child parses. -/
def leafDoc0 : Doc :=
  Doc.mk (some "t.x.sbt") (some "x") (some 0) (some "m") none none
    (some factory0.create_nodegraph)

/-- C6 counterexample: a leaf record that also carries `left` and
`right` children is not rejected by `load_node` — it is loaded as a
leaf, and the children are silently ignored, contradicting the claim
that such a structurally inconsistent record raises
`DocumentParseError`. -/
theorem leaf_record_with_children_loads :
    load_node factory0
      (Doc.mk (some "t.x.sbt") (some "x") (some 0) (some "m")
        (some leafDoc0) (some leafDoc0) (some factory0.create_nodegraph)) =
      Except.ok (SBTNode.Leaf "m" "x" factory0.create_nodegraph) := by
  rfl

/-- C6 (amended).  `load_node` fails — surfacing an error, returning
no tree — exactly on a missing required field (`filename`; `name` of a
leaf record; `left`, `right`, `children`, `name` of an internal
record) or a missing/unreadable blob; but a leaf record carrying
`left`/`right` is accepted as a leaf with the children ignored. -/
theorem load_node_error_behavior :
    (∀ (fac : GraphFactory) (nm : Option String) (ch : Option Nat) (md : Option String)
        (l r : Option Doc) (b : Option Nodegraph),
        load_node fac (Doc.mk none nm ch md l r b) =
          Except.error (LoadError.documentParseError "filename")) ∧
    (∀ (fac : GraphFactory) (fn : String) (nm : Option String) (ch : Option Nat)
        (md : Option String) (l r : Option Doc),
        load_node fac (Doc.mk (some fn) nm ch md l r none) =
          Except.error (LoadError.filterLoadError fn)) ∧
    (∀ (fac : GraphFactory) (fn : String) (ch : Option Nat) (md : String)
        (l r : Option Doc) (g : Nodegraph),
        load_node fac (Doc.mk (some fn) none ch (some md) l r (some g)) =
          Except.error (LoadError.documentParseError "name")) ∧
    (∀ (fac : GraphFactory) (fn : String) (nm : Option String) (ch : Option Nat)
        (r : Option Doc) (g : Nodegraph),
        load_node fac (Doc.mk (some fn) nm ch none none r (some g)) =
          Except.error (LoadError.documentParseError "left")) ∧
    (∀ (fac : GraphFactory) (fn : String) (nm : Option String) (ch : Option Nat)
        (g : Nodegraph),
        load_node fac (Doc.mk (some fn) nm ch none (some leafDoc0) none (some g)) =
          Except.error (LoadError.documentParseError "right")) ∧
    (∀ (fac : GraphFactory) (fn : String) (nm : Option String) (g : Nodegraph),
        load_node fac
            (Doc.mk (some fn) nm none none (some leafDoc0) (some leafDoc0) (some g)) =
          Except.error (LoadError.documentParseError "children")) ∧
    (∀ (fac : GraphFactory) (fn : String) (ch : Nat) (g : Nodegraph),
        load_node fac
            (Doc.mk (some fn) none (some ch) none (some leafDoc0) (some leafDoc0)
              (some g)) =
          Except.error (LoadError.documentParseError "name")) ∧
    (∀ (fac : GraphFactory) (fn nm : String) (ch : Option Nat) (md : String)
        (l r : Option Doc) (g : Nodegraph),
        load_node fac (Doc.mk (some fn) (some nm) ch (some md) l r (some g)) =
          Except.ok (SBTNode.Leaf md nm g)) :=
  ⟨by intros; simp only [load_node]; rfl, by intros; simp only [load_node]; rfl,
   by intros; simp only [load_node]; rfl, by intros; simp only [load_node]; rfl,
   by intros; simp only [load_node]; rfl, by intros; simp only [load_node]; rfl,
   by intros; simp only [load_node]; rfl, by intros; simp only [load_node]; rfl⟩

theorem add_node_leaves (fac : GraphFactory) (st : BuildState) (g : Nodegraph)
    (nm : String) (w : Nat) (subs : List SBTNode) (item : SBTNode) :
    (↑(leavesOf ((SBTNode.Node g nm w subs).add_node fac st item).1) : Multiset SBTNode) =
      ↑(leavesOf (SBTNode.Node g nm w subs)) + ↑(leavesOf item) := by
  match subs with
  | [] =>
      simp [SBTNode.add_node, leavesOf_node, leavesList, Multiset.coe_add]
  | [a] =>
      simp [SBTNode.add_node, leavesOf_node, leavesList, Multiset.coe_add]
  | a :: b :: rest =>
      rcases Nat.lt_trichotomy a.children b.children with hlt | hab | hgt
      · rw [add_node_two_lt hlt]
        simp only [leavesOf_node, leavesList, List.append_eq, leavesList_append,
          List.append_nil, ← Multiset.coe_add]
        ac_rfl
      · rw [add_node_two_tie hab]
        cases hcoin : st.coins.headD true with
        | true =>
            simp only [hcoin, if_true, leavesOf_node, leavesList, List.append_eq,
              leavesList_append, List.append_nil, ← Multiset.coe_add]
            ac_rfl
        | false =>
            simp only [hcoin, Bool.false_eq_true, if_false, leavesOf_node, leavesList,
              List.append_eq, leavesList_append, List.append_nil, ← Multiset.coe_add]
            ac_rfl
      · rw [add_node_two_gt hgt]
        simp only [leavesOf_node, leavesList, List.append_eq, leavesList_append,
          List.append_nil, ← Multiset.coe_add]
        ac_rfl

theorem findList_sublist (p : SBTNode → Bool) :
    ∀ cs : List SBTNode,
      (∀ c ∈ cs, List.Sublist (SBTNode.find p c) (leavesOf c)) →
      List.Sublist (findList p cs) (leavesList cs) := by
  intro cs
  induction cs with
  | nil => intro _; simp [findList, leavesList]
  | cons c cs ih =>
      intro h
      simp only [findList, leavesList]
      exact List.Sublist.append (h c (by simp)) (ih fun x hx => h x (by simp [hx]))

theorem find_sublist (p : SBTNode → Bool) :
    ∀ t, List.Sublist (SBTNode.find p t) (leavesOf t) := by
  intro t
  induction t using SBTNode.inductionOn with
  | hleaf m nm g =>
      by_cases hp : p (SBTNode.Leaf m nm g) = true <;>
        simp [SBTNode.find, leavesOf_leaf, hp]
  | hnode g nm w subs ih =>
      by_cases hp : p (SBTNode.Node g nm w subs) = true
      · have heq : SBTNode.find p (SBTNode.Node g nm w subs) = findList p subs := by
          simp [SBTNode.find, hp]
        rw [heq, leavesOf_node]
        exact findList_sublist p subs ih
      · have heq : SBTNode.find p (SBTNode.Node g nm w subs) = [] := by
          simp [SBTNode.find, hp]
        rw [heq]
        exact List.nil_sublist _

/-- C7.  Frame property: an `add_node` call never touches any
pre-existing leaf — the multiset of leaves (with their filters) of the
result is exactly the old leaves plus the item's leaves, identically —
and `find`, a pure function in this embedding just as it only reads in
the source, returns a sublist of the existing leaves, creating and
mutating nothing. -/
theorem frame_property :
    (∀ (fac : GraphFactory) (st : BuildState) (g : Nodegraph) (nm : String) (w : Nat)
        (subs : List SBTNode) (item : SBTNode),
        (↑(leavesOf ((SBTNode.Node g nm w subs).add_node fac st item).1) :
            Multiset SBTNode) =
          ↑(leavesOf (SBTNode.Node g nm w subs)) + ↑(leavesOf item)) ∧
    (∀ (p : SBTNode → Bool) (t : SBTNode),
        List.Sublist (SBTNode.find p t) (leavesOf t)) :=
  ⟨add_node_leaves, find_sublist⟩

/-- C8.  `filter_distance` draws positions with `randint(0, len(a))`,
whose upper bound is inclusive in Python, so the draw `i = len a` is a
legal output of the generator; indexing the raw byte table at that
position is out of range and the comparison fails (numpy `IndexError`)
instead of producing the agreement fraction.  With the in-range draw
the function does return agreement / (8 · tables · n) ∈ [0, 1]. -/
theorem filter_distance_out_of_range :
    legalDraws [[0]] [[0]] 1 [[1]] = true ∧
    filter_distance [[0]] [[0]] 1 [[1]] = none ∧
    legalDraws [[0]] [[0]] 1 [[0]] = true ∧
    filter_distance [[0]] [[0]] 1 [[0]] = some 1 := by
  refine ⟨by decide, by rfl, by decide, ?_⟩
  show some ((8 : ℚ) / (8 * 1 * 1)) = some 1
  norm_num

/-- C9.  End-to-end scenario of `test_longer_search`: in the
five-dataset tree (k = 5, datasets a, b, c, e contain AAAAT; d does
not), `find` with the containment predicate for the one-k-mer query
AAAAT at threshold 1.0 returns exactly the leaves {a, b, c, e} — and
in particular never d — whatever the two random tie-break choices of
the build were. -/
theorem end_to_end_aaaat :
    ∀ c1 c2 : Bool,
      (∀ x ∈ (SBTNode.find (search_transcript 5 "AAAAT" 1) (buildScenario c1 c2)).map
          SBTNode.metadataOf, x ∈ (["a", "b", "c", "e"] : List String)) ∧
      ∀ m ∈ (["a", "b", "c", "e"] : List String),
        m ∈ (SBTNode.find (search_transcript 5 "AAAAT" 1) (buildScenario c1 c2)).map
          SBTNode.metadataOf := by
  intro c1 c2
  cases c1 <;> cases c2 <;> decide

/-- Witness for C9 at the concrete coin stream (true, false). -/
theorem end_to_end_aaaat_witness :
    (∀ x ∈ (SBTNode.find (search_transcript 5 "AAAAT" 1) (buildScenario true false)).map
        SBTNode.metadataOf, x ∈ (["a", "b", "c", "e"] : List String)) ∧
    ∀ m ∈ (["a", "b", "c", "e"] : List String),
      m ∈ (SBTNode.find (search_transcript 5 "AAAAT" 1) (buildScenario true false)).map
        SBTNode.metadataOf :=
  end_to_end_aaaat true false
